import Mathlib

/-!
Verification of the retrieval-and-confidence core of the Knowledge-Base-Agent
repository (`src/rag/retriever.py`, `src/rag/generator.py` and their near-identical
copies `src/backend/rag/retriever.py`, `src/backend/rag/generator.py`).

Strings are modelled as `List Char` (ASCII fragment); Python floats are modelled
as `ℚ` in the retriever (where everything is rational) and as `ℝ` in the
confidence scorer (where `** 0.9` appears).  The FAISS vector store is an
opaque parameter `search : String → Nat → Option (List (Doc × ℚ))`; `none`
models a raised exception, `some l` a normal return.
-/

namespace RagCore

/-! ### Character classes

`re` word characters (`\w`, ASCII fragment) and the character class
`[a-zA-Z0-9\-\']` used by `Retriever._extract_keywords`. -/

/-- Python regex `\w` (ASCII): letters, digits, underscore. -/
def isWordChar (c : Char) : Bool := c.isAlphanum || c == '_'

/-- The character class `[a-zA-Z0-9\-\']` of `_extract_keywords`. -/
def isClsChar (c : Char) : Bool := c.isAlphanum || c == '-' || c == '\''

/-! ### Tokenizer for `re.findall(r'\b[a-zA-Z0-9\-\']+\b', s)`

A deterministic left-to-right scanner: a match starts at a word boundary
(`\b`: the word-ness of the previous character differs from that of the
current one; out-of-string counts as non-word), greedily takes the maximal
run of class characters, then backtracks from the right until the position
after the kept prefix is again a word boundary.  `re.findall` resumes
scanning immediately after each match. -/

/-- Backtracking helper.  Input is the *reversed* greedy run and the word-ness
of the character following the run; returns the length of the longest prefix
of the run that ends at a word boundary (`0` if none). -/
def btLen : List Char → Bool → Nat
  | [], _ => 0
  | c :: rest, nw => if isWordChar c != nw then rest.length + 1 else btLen rest (isWordChar c)

/-- Word-ness of the first character of a list (false for the empty list,
matching the regex convention that the string ends in a non-word context). -/
def headWord : List Char → Bool
  | [] => false
  | c :: _ => isWordChar c

/-- The scanner, with a fuel argument for structural recursion (a fuel of at
least the string length is always enough: every step consumes a character).
`prev` is the word-ness of the previous character (`false` at the start). -/
def scanTok : Nat → Bool → List Char → List (List Char)
  | 0, _, _ => []
  | _ + 1, _, [] => []
  | f + 1, prev, c :: rest =>
    if (prev != isWordChar c) && isClsChar c then
      let run := List.takeWhile isClsChar (c :: rest)
      let rst := List.dropWhile isClsChar (c :: rest)
      let k := btLen run.reverse (headWord rst)
      if k = 0 then
        scanTok f (isWordChar c) rest
      else
        run.take k :: scanTok f (isWordChar ((run.take k).getLastD c)) (run.drop k ++ rst)
    else
      scanTok f (isWordChar c) rest

/-- Tokens of a string under `re.findall(r'\b[a-zA-Z0-9\-\']+\b', s)`. -/
def findTokens (s : List Char) : List (List Char) := scanTok s.length false s

/-! ### Keyword extraction (`Retriever._extract_keywords`) -/

/-- The stop-word set of `_extract_keywords`, verbatim from the source. -/
def stopWords : List (List Char) :=
  ["the", "a", "an", "and", "or", "but", "in", "on", "at", "to", "for", "of",
   "with", "by", "is", "are", "was", "were", "be", "been", "being", "have",
   "has", "had", "do", "does", "did", "will", "would", "should", "could",
   "may", "might", "must", "can", "this", "that", "these", "those", "what",
   "which", "who", "whom", "whose", "where", "when", "why", "how"].map String.toList

/-- Filter of `_extract_keywords`: not a stop word and longer than 2. -/
def keepTok (t : List Char) : Bool := !(stopWords.contains t) && decide (2 < t.length)

/-- First-occurrence deduplication with an explicit `seen` accumulator,
mirroring the `seen` set loop of `_extract_keywords`. -/
def dedupSeen {α : Type} [DecidableEq α] : List α → List α → List α
  | _, [] => []
  | seen, x :: xs => if x ∈ seen then dedupSeen seen xs else x :: dedupSeen (x :: seen) xs

/-- Lower-cased character list of a query string (Python `query.lower()`,
ASCII fragment). -/
def lowerChars (q : String) : List Char := q.toList.map Char.toLower

/-- `Retriever._extract_keywords`: tokenize the lower-cased query, drop stop
words and tokens of length ≤ 2, deduplicate keeping first occurrences. -/
def extractKeywords (q : String) : List (List Char) :=
  dedupSeen [] ((findTokens (lowerChars q)).filter keepTok)

/-- Space-separated join (`' '.join(keywords)`). -/
def joinSp : List (List Char) → List Char
  | [] => []
  | [t] => t
  | t :: rest => t ++ ' ' :: joinSp rest

/-- `Retriever._expand_query`: append the keywords to the raw query if any. -/
def expandQuery (q : String) : String :=
  match extractKeywords q with
  | [] => q
  | kws => q ++ " " ++ String.mk (joinSp kws)

/-! ### Substring test (Python `needle in haystack`) -/

/-- Python `str.startswith` on character lists. -/
def startsWith : List Char → List Char → Bool
  | [], _ => true
  | _ :: _, [] => false
  | a :: as, b :: bs => a == b && startsWith as bs

/-- Python substring containment `needle in haystack`. -/
def isSubstr (n : List Char) : List Char → Bool
  | [] => startsWith n []
  | c :: t => startsWith n (c :: t) || isSubstr n t

/-! ### Retriever (`Retriever.retrieve_with_scores`)

The vector store is a parameter `search : String → Nat → Option (List (Doc × ℚ))`;
`none` models `similarity_search_with_score` raising an exception. -/

/-- A retrievable chunk; only `page_content` matters for the scored retrieval
logic (metadata is used only by the formatting helpers, outside the claims). -/
structure Doc where
  content : String
deriving DecidableEq, Repr

/-- `Retriever._calculate_keyword_match_score`: fraction of keywords occurring
(as substrings) in the lower-cased chunk content; `0` with no keywords. -/
def kwMatchScore (kws : List (List Char)) (d : Doc) : ℚ :=
  if kws = [] then 0
  else
    ((kws.countP fun kw => isSubstr (kw.map Char.toLower) (lowerChars d.content)) : ℚ)
      / (kws.length : ℚ)

/-- Distance-to-similarity conversion of `retrieve_with_scores`:
`1 - (min(d/2, 1) if d > 0 else 0)`. -/
def simOfDist (d : ℚ) : ℚ := 1 - (if 0 < d then min (d / 2) 1 else 0)

/-- The combined score `0.7 * similarity + 0.3 * keyword_match`. -/
def combinedScore (kws : List (List Char)) (d : Doc) (dist : ℚ) : ℚ :=
  0.7 * simOfDist dist + 0.3 * kwMatchScore kws d

/-- Stable descending insertion: `x` is placed before the first element with a
strictly smaller key, after all earlier elements with a key ≥ its own. -/
def insertDesc {α : Type} (key : α → ℚ) (x : α) : List α → List α
  | [] => [x]
  | y :: ys => if key y < key x then x :: y :: ys else y :: insertDesc key x ys

/-- Stable descending sort by a rational key; this is the semantics of Python's
`list.sort(key=..., reverse=True)`, which is a stable sort with descending
keys (ties keep their original relative order). -/
def sortDesc {α : Type} (key : α → ℚ) (l : List α) : List α :=
  l.foldl (fun acc x => insertDesc key x acc) []

/-- Python blank test `not query or not query.strip()`. -/
def isBlank (q : String) : Bool := q.toList.all Char.isWhitespace

/-- The candidate-fetching part of the `try` block: search with the expanded
query; if that returns an empty list, retry with the raw query.  `none`
propagates an exception from either call. -/
def enhancedCandidates (search : String → Nat → Option (List (Doc × ℚ)))
    (q : String) (rk : Nat) : Option (List (Doc × ℚ)) :=
  match search (expandQuery q) rk with
  | none => none
  | some l => if l.isEmpty then search q rk else some l

/-- The `enhanced_results` tuples `(doc, distance, combined_score, keyword_score)`. -/
def enhTuples (kws : List (List Char)) (dws : List (Doc × ℚ)) : List (Doc × ℚ × ℚ × ℚ) :=
  dws.map fun p => (p.1, p.2, combinedScore kws p.1 p.2, kwMatchScore kws p.1)

/-- The sort key of the enhanced tuples: the combined score (`x[2]`). -/
def combKey (t : Doc × ℚ × ℚ × ℚ) : ℚ := t.2.2.1

/-- The enhanced scoring-and-ranking step: annotate each candidate with its
combined and keyword scores, stable-sort descending by combined score, take
the first `k`, and project back to `(doc, raw_distance)` pairs. -/
def rankCandidates (kws : List (List Char)) (k : Nat)
    (dws : List (Doc × ℚ)) : List (Doc × ℚ) :=
  ((sortDesc combKey (enhTuples kws dws)).take k).map fun t => (t.1, t.2.1)

/-- `Retriever.retrieve_with_scores`.  Blank queries return `[]` without
consulting the index; an exception anywhere in the enhanced path falls back
to one plain search with the raw query and `k`; if that also fails, `[]`. -/
def retrieveWithScores (search : String → Nat → Option (List (Doc × ℚ)))
    (q : String) (k : Nat) : List (Doc × ℚ) :=
  if isBlank q then []
  else
    match enhancedCandidates search q (min (k * 3) 20) with
    | none => (search q k).getD []
    | some dws =>
      if dws.isEmpty then []
      else rankCandidates (extractKeywords q) k dws

/-! ### Confidence scorer (`Generator.generate_answer`, confidence section)

Distances are real numbers here because the final score uses `** 0.9`.
The docs are represented by their `page_content` strings. -/

/-- Python `min(scores)` over a non-empty list (`0` for `[]`, never used). -/
noncomputable def minDist : List ℝ → ℝ
  | [] => 0
  | d :: ds => ds.foldl min d

/-- `avg_distance = sum(scores) / len(scores)`. -/
noncomputable def avgDist (l : List ℝ) : ℝ := l.sum / (l.length : ℝ)

/-- Population variance around `avg_distance`. -/
noncomputable def popVar (l : List ℝ) : ℝ :=
  (l.map fun s => (s - avgDist l) ^ 2).sum / (l.length : ℝ)

/-- `best_similarity = max(0, 1 - best_distance/2)`. -/
noncomputable def bestSim (l : List ℝ) : ℝ := max 0 (1 - minDist l / 2)

/-- `avg_similarity = max(0, 1 - avg_distance/2)`. -/
noncomputable def avgSim (l : List ℝ) : ℝ := max 0 (1 - avgDist l / 2)

/-- `consistency = 1/(1 + variance)` for more than one distance, else `1`. -/
noncomputable def consistencyOf (l : List ℝ) : ℝ :=
  if 1 < l.length then 1 / (1 + popVar l) else 1

/-- Maximal runs of `\w` characters: `re.findall(r'\b\w+\b', s)`, which on any
string coincides with `\w+`. -/
def wordTokens (s : List Char) : List (List Char) :=
  match s with
  | [] => []
  | c :: t =>
    if isWordChar c then
      (c :: List.takeWhile isWordChar t) :: wordTokens (List.dropWhile isWordChar t)
    else
      wordTokens t
  termination_by s.length
  decreasing_by
  · rename_i tl hw
    have := (List.dropWhile_sublist (p := isWordChar) (l := tl)).length_le
    simp only [List.length_cons]
    omega
  · simp

/-- Per-document term of `keyword_matches`: the number of distinct query words
also occurring among the content's words, divided by the number of distinct
query words; added only when positive (the `if matches > 0` guard). -/
noncomputable def docFrac (q : String) (content : String) : ℝ :=
  let qw := dedupSeen [] (wordTokens (lowerChars q))
  let cw := wordTokens (lowerChars content)
  let m := qw.countP fun w => decide (w ∈ cw)
  if 0 < m then (if qw.isEmpty then 0 else (m : ℝ) / (qw.length : ℝ)) else 0

/-- `keyword_boost = min(1, keyword_matches / len(docs))` if any docs, else 0. -/
noncomputable def keywordBoost (docs : List String) (q : String) : ℝ :=
  if docs.isEmpty then 0
  else min 1 (((docs.map (docFrac q)).sum) / (docs.length : ℝ))

/-- The weighted combination, exponent and clamp applied to the four factors:
`max(0, min(1, (0.5*bs + 0.3*avg + 0.1*cons + 0.1*kb) ** 0.9))`. -/
noncomputable def scoreFromFactors (bs avg cons kb : ℝ) : ℝ :=
  max 0 (min 1 ((0.5 * bs + 0.3 * avg + 0.1 * cons + 0.1 * kb) ^ (0.9 : ℝ)))

/-- The confidence score computed by `generate_answer` from the raw distances,
the retrieved contents and the question (the non-empty branch). -/
noncomputable def confidenceScore (ds : List ℝ) (docs : List String) (q : String) : ℝ :=
  scoreFromFactors (bestSim ds) (avgSim ds) (consistencyOf ds) (keywordBoost docs q)

/-- The `confidence_breakdown` record of the backend generator. -/
structure ConfidenceBreakdown where
  best_similarity : ℝ
  avg_similarity : ℝ
  consistency : ℝ
  keyword_match : ℝ
  final_score : ℝ

/-- The breakdown as assembled by `src/backend/rag/generator.py`. -/
noncomputable def mkBreakdown (ds : List ℝ) (docs : List String) (q : String) :
    ConfidenceBreakdown where
  best_similarity := bestSim ds
  avg_similarity := avgSim ds
  consistency := consistencyOf ds
  keyword_match := keywordBoost docs q
  final_score := confidenceScore ds docs q

/-- The generator's confidence on a retrieval result: `0` when the retrieval
came back empty (the early-return branch), the full formula otherwise. -/
noncomputable def generatorConfidence (results : List (String × ℝ)) (q : String) : ℝ :=
  if results = [] then 0
  else confidenceScore (results.map (·.2)) (results.map (·.1)) q

/-! ### Answer extraction (`Generator._extract_answer`) -/

/-- Python `s.split(sep)` restricted to the first separator occurrence:
`some (before, after)` when the separator occurs, `none` otherwise. -/
def splitFirst (pat : List Char) : List Char → Option (List Char × List Char)
  | [] => if startsWith pat [] then some ([], []) else none
  | c :: t =>
    if startsWith pat (c :: t) then some ([], (c :: t).drop pat.length)
    else (splitFirst pat t).map fun p => (c :: p.1, p.2)

/-- The part of `s` before the first occurrence of `pat` (all of `s` if none):
Python `s.split(pat)[0]`. -/
def takeUntil (pat : List Char) (s : List Char) : List Char :=
  match splitFirst pat s with
  | some p => p.1
  | none => s

/-- Python `str.strip()` (ASCII whitespace). -/
def pyStrip (s : List Char) : List Char :=
  ((s.dropWhile Char.isWhitespace).reverse.dropWhile Char.isWhitespace).reverse

/-- The marker `"ANSWER:"`. -/
def ansM : List Char := "ANSWER:".toList

/-- The marker `"SOURCES:"`. -/
def srcM : List Char := "SOURCES:".toList

/-- `Generator._extract_answer`: if `"ANSWER:"` occurs, take the segment after
its first occurrence, cut at the next `"ANSWER:"` occurrence (an artifact of
`split`), cut at the first `"SOURCES:"` inside, and strip; otherwise take the
part before `"SOURCES:"` (or the whole reply) and strip. -/
def extractAnswer (text : List Char) : List Char :=
  match splitFirst ansM text with
  | some p => pyStrip (takeUntil srcM (takeUntil ansM p.2))
  | none => pyStrip (takeUntil srcM text)

/-- `NoEarly pat a tail`: no occurrence of `pat` in `a ++ tail` starts strictly
inside `a`. -/
def NoEarly (pat a tail : List Char) : Prop :=
  ∀ p s : List Char, p ++ s = a → s ≠ [] → startsWith pat (s ++ tail) = false

/-- The extraction rule exactly as the claim states it: the substring after
the first `"ANSWER:"` marker and before the following `"SOURCES:"` marker when
both occur, the portion delimited by whichever single marker occurs otherwise,
the whole reply when neither occurs (whitespace-stripped, as the code's
`strip()` does). -/
def specC9Extract (text : List Char) : List Char :=
  match splitFirst ansM text with
  | some p => pyStrip (takeUntil srcM p.2)
  | none => pyStrip (takeUntil srcM text)

/-- The scanner at its canonical fuel (the string length). -/
def scanAt (prev : Bool) (l : List Char) : List (List Char) := scanTok l.length prev l

/-- Strict lexicographic "comes before" order for a descending stable sort:
either a strictly larger key, or an equal key and a smaller original index. -/
def lexGT {β : Type} (key : β → ℚ) (idx : β → Nat) (a b : β) : Prop :=
  key b < key a ∨ (key a = key b ∧ idx a < idx b)

/-- Index tagging, to speak about the original index-search order. -/
def tagIdx {β : Type} : Nat → List β → List (Nat × β)
  | _, [] => []
  | n, x :: xs => (n, x) :: tagIdx (n + 1) xs

/-- The claim's per-chunk fraction: distinct query words present in the chunk
over the number of distinct query words (real division; `0/0 = 0`). -/
noncomputable def specFrac (q content : String) : ℝ :=
  ((dedupSeen [] (wordTokens (lowerChars q))).countP
      (fun w => decide (w ∈ wordTokens (lowerChars content))) : ℝ)
    / ((dedupSeen [] (wordTokens (lowerChars q))).length : ℝ)

/-- The confidence formula exactly as the claim words it. -/
noncomputable def specFinalScore (ds : List ℝ) (docs : List String) (q : String) : ℝ :=
  max 0 (min 1 ((0.5 * max 0 (1 - minDist ds / 2) + 0.3 * max 0 (1 - avgDist ds / 2)
    + 0.1 * (if ds.length = 1 then 1 else 1 / (1 + popVar ds))
    + 0.1 * min 1 ((docs.map (specFrac q)).sum / (docs.length : ℝ))) ^ (0.9 : ℝ)))

/-! ## Helper lemmas: `startsWith`, `isSubstr`, `splitFirst` -/

theorem startsWith_iff_take (p s : List Char) :
    startsWith p s = true ↔ s.take p.length = p := by
  induction p generalizing s with
  | nil => simp [startsWith]
  | cons a as ih =>
    cases s with
    | nil => simp [startsWith]
    | cons b bs =>
      simp only [startsWith, Bool.and_eq_true, beq_iff_eq, List.length_cons, List.take_succ_cons,
        List.cons.injEq, ih]
      tauto

theorem startsWith_self_append (p b : List Char) : startsWith p (p ++ b) = true := by
  rw [startsWith_iff_take, List.take_left]

/-- A pattern that matches at the start of `x ++ y` and fits inside `x`
matches at the start of `x`. -/
theorem startsWith_of_append (p x y : List Char) (hlen : p.length ≤ x.length)
    (h : startsWith p (x ++ y) = true) : startsWith p x = true := by
  rw [startsWith_iff_take] at h ⊢
  rw [List.take_append_eq_append_take, Nat.sub_eq_zero_of_le hlen, List.take_zero,
    List.append_nil] at h
  exact h

/-- If a pattern matches at the start of `s ++ tail` but `s` is shorter than
the pattern, then `s` is a prefix of the pattern and the pattern is `s`
followed by a prefix of `tail`. -/
theorem startsWith_seam (p s tail : List Char) (hlt : s.length < p.length)
    (h : startsWith p (s ++ tail) = true) :
    s = p.take s.length ∧ p = s ++ tail.take (p.length - s.length) := by
  rw [startsWith_iff_take] at h
  rw [List.take_append_eq_append_take, List.take_of_length_le (Nat.le_of_lt hlt)] at h
  constructor
  · have := congrArg (List.take s.length) h
    rw [List.take_append_eq_append_take, Nat.sub_self, List.take_zero, List.append_nil,
      List.take_length] at this
    exact this
  · exact h.symm

theorem mem_of_startsWith (p s : List Char) (h : startsWith p s = true) (c : Char)
    (hc : c ∈ p) : c ∈ s := by
  rw [startsWith_iff_take] at h
  exact (List.take_subset _ _) (h ▸ hc)

theorem isSubstr_of_startsWith (p s : List Char) (h : startsWith p s = true) :
    isSubstr p s = true := by
  cases s with
  | nil => rw [isSubstr]; exact h
  | cons c t => rw [isSubstr]; simp [h]

theorem isSubstr_of_suffix (p s m : List Char) (hsuf : ∃ t, t ++ s = m)
    (h : startsWith p s = true) : isSubstr p m = true := by
  obtain ⟨t, rfl⟩ := hsuf
  induction t with
  | nil => exact isSubstr_of_startsWith p s h
  | cons c cs ih =>
    rw [List.cons_append, isSubstr]
    simp only [Bool.or_eq_true]
    exact Or.inr ih

theorem splitFirst_eq_none_of_not_substr (p s : List Char) (h : isSubstr p s = false) :
    splitFirst p s = none := by
  induction s with
  | nil =>
    rw [isSubstr] at h
    rw [splitFirst, if_neg (by simp [h])]
  | cons c t ih =>
    rw [isSubstr] at h
    simp only [Bool.or_eq_false_iff] at h
    rw [splitFirst, if_neg (by simp [h.1]), ih h.2]
    rfl

theorem takeUntil_of_not_substr (p s : List Char) (h : isSubstr p s = false) :
    takeUntil p s = s := by
  rw [takeUntil, splitFirst_eq_none_of_not_substr p s h]

theorem splitFirst_clean (pat : List Char) :
    ∀ a tail, NoEarly pat a tail →
      splitFirst pat (a ++ tail) = (splitFirst pat tail).map fun pr => (a ++ pr.1, pr.2) := by
  intro a
  induction a with
  | nil =>
    intro tail _
    cases h : splitFirst pat tail with
    | none => simp [h]
    | some pr => simp [h]
  | cons c t ih =>
    intro tail hne
    have h0 : startsWith pat ((c :: t) ++ tail) = false := hne [] (c :: t) rfl (by simp)
    rw [List.cons_append, splitFirst, if_neg (by simp [List.cons_append] at h0 ⊢; exact h0)]
    have ih' := ih tail (fun p s hp hs => hne (c :: p) s (by simp [hp]) hs)
    rw [ih']
    cases splitFirst pat tail with
    | none => rfl
    | some pr => rfl

theorem splitFirst_of_startsWith (pat s : List Char) (h : startsWith pat s = true) :
    splitFirst pat s = some ([], s.drop pat.length) := by
  cases s with
  | nil =>
    rw [splitFirst, if_pos h]
    simp
  | cons c t => rw [splitFirst, if_pos h]

theorem splitFirst_at_marker (pat a b : List Char) (h : NoEarly pat a (pat ++ b)) :
    splitFirst pat (a ++ pat ++ b) = some (a, b) := by
  rw [List.append_assoc, splitFirst_clean pat a (pat ++ b) h,
    splitFirst_of_startsWith pat (pat ++ b) (startsWith_self_append pat b), List.drop_left]
  simp

theorem takeUntil_clean (pat a tail : List Char) (h : NoEarly pat a tail) :
    takeUntil pat (a ++ tail) = a ++ takeUntil pat tail := by
  rw [takeUntil, takeUntil, splitFirst_clean pat a tail h]
  cases splitFirst pat tail with
  | none => simp
  | some pr => rfl

theorem takeUntil_at_marker (pat a b : List Char) (h : NoEarly pat a (pat ++ b)) :
    takeUntil pat (a ++ pat ++ b) = a := by
  rw [takeUntil, splitFirst_at_marker pat a b h]

/-- Splitting a suffix of an append: a nonempty suffix of `a1 ++ a2` is either
a suffix of `a2` or a nonempty suffix of `a1` followed by all of `a2`. -/
theorem suffix_append_cases (p s a1 a2 : List Char) (h : p ++ s = a1 ++ a2) :
    (∃ p2, p2 ++ s = a2) ∨ (∃ s1, (∃ p1, p1 ++ s1 = a1) ∧ s1 ≠ [] ∧ s = s1 ++ a2) := by
  rcases le_or_lt a1.length p.length with hle | hlt
  · left
    refine ⟨p.drop a1.length, ?_⟩
    have := congrArg (List.drop a1.length) h
    rw [List.drop_append_eq_append_drop, List.drop_append_eq_append_drop,
      Nat.sub_eq_zero_of_le hle, List.drop_zero, List.drop_of_length_le (Nat.le_refl _),
      Nat.sub_self, List.drop_zero, List.nil_append] at this
    exact this
  · right
    refine ⟨a1.drop p.length, ⟨a1.take p.length, List.take_append_drop _ _⟩, ?_, ?_⟩
    · intro hnil
      have := congrArg List.length hnil
      simp only [List.length_drop, List.length_nil] at this
      omega
    · have h2 := congrArg (List.drop p.length) h
      rw [List.drop_left, List.drop_append_eq_append_drop,
        Nat.sub_eq_zero_of_le (Nat.le_of_lt hlt), List.drop_zero] at h2
      exact h2

/-! ### Non-overlap facts about the two markers -/

theorem ansM_len : ansM.length = 7 := by decide

theorem srcM_len : srcM.length = 8 := by decide

theorem ans_self_no_overlap : ∀ j, j < 7 → 1 ≤ j → ansM ≠ ansM.take j ++ ansM.take (7 - j) := by
  decide

theorem ans_src_no_overlap : ∀ j, j < 7 → 1 ≤ j → ansM ≠ ansM.take j ++ srcM.take (7 - j) := by
  decide

theorem src_self_no_overlap : ∀ j, j < 8 → 1 ≤ j → srcM ≠ srcM.take j ++ srcM.take (8 - j) := by
  decide

theorem ans_not_in_src_drop : ∀ p, p < 8 → startsWith ansM (srcM.drop p) = false := by
  decide

theorem ans_take_ne_src_drop : ∀ j, j < 7 → 1 ≤ j → ansM.take j ≠ srcM.drop (8 - j) := by
  decide

/-- Generic seam argument: no occurrence of `pat` can start strictly inside
`a` when `a` is immediately followed by `pat2` (with `pat2` long enough),
provided `pat` does not occur inside `a` and cannot straddle the seam. -/
theorem noEarly_of_seam (pat pat2 a R : List Char)
    (hsub : isSubstr pat a = false)
    (hlen : pat.length ≤ pat2.length + 1)
    (hno : ∀ j, j < pat.length → 1 ≤ j → pat ≠ pat.take j ++ pat2.take (pat.length - j)) :
    NoEarly pat a (pat2 ++ R) := by
  intro p s hps hsne
  by_contra hsw
  rw [Bool.not_eq_false] at hsw
  have hs1 : 1 ≤ s.length := by
    cases s with
    | nil => exact absurd rfl hsne
    | cons x xs => simp
  rcases le_or_lt pat.length s.length with hfit | hseam
  · have h1 : startsWith pat s = true :=
      startsWith_of_append pat s (pat2 ++ R) hfit hsw
    exact absurd (isSubstr_of_suffix pat s a ⟨p, hps⟩ h1) (by simp [hsub])
  · obtain ⟨hs, hp⟩ := startsWith_seam pat s (pat2 ++ R) hseam hsw
    set j := s.length with hj
    rw [List.take_append_eq_append_take,
      Nat.sub_eq_zero_of_le (by omega : pat.length - j ≤ pat2.length),
      List.take_zero, List.append_nil] at hp
    rw [hs] at hp
    exact hno j hseam hs1 hp

/-- The specific obligation for searching `"ANSWER:"` in `mid ++ "SOURCES:" ++ post`:
no occurrence can start strictly inside `mid ++ "SOURCES:"`. -/
theorem noEarly_ans_mid_src (mid post : List Char) (hmid : isSubstr ansM mid = false) :
    NoEarly ansM (mid ++ srcM) post := by
  intro p s hps hsne
  by_contra hsw
  rw [Bool.not_eq_false] at hsw
  have hs1 : 1 ≤ s.length := by
    cases s with
    | nil => exact absurd rfl hsne
    | cons x xs => simp
  rcases suffix_append_cases p s mid srcM hps with ⟨p2, hp2⟩ | ⟨s1, ⟨p1, hp1⟩, hs1ne, rfl⟩
  · have hsdrop : s = srcM.drop p2.length := by
      have h := congrArg (List.drop p2.length) hp2
      rw [List.drop_left] at h
      exact h
    have hlp2 : p2.length + s.length = 8 := by
      have h := congrArg List.length hp2
      simp only [List.length_append, srcM_len] at h
      exact h
    rcases le_or_lt 7 s.length with hfit | hseam
    · have h1 : startsWith ansM s = true :=
        startsWith_of_append ansM s post (by rw [ansM_len]; exact hfit) hsw
      rw [hsdrop] at h1
      exact absurd h1 (by simp [ans_not_in_src_drop p2.length (by omega)])
    · obtain ⟨hs, _⟩ := startsWith_seam ansM s post (by rw [ansM_len]; exact hseam) hsw
      set j := s.length with hj
      refine ans_take_ne_src_drop j hseam hs1 ?_
      have h8 : 8 - j = p2.length := by omega
      rw [← hs, hsdrop, h8]
  · rw [List.append_assoc] at hsw
    have hs11 : 1 ≤ s1.length := by
      cases s1 with
      | nil => exact absurd rfl hs1ne
      | cons x xs => simp
    rcases le_or_lt 7 s1.length with hfit | hseam
    · have h1 : startsWith ansM s1 = true :=
        startsWith_of_append ansM s1 (srcM ++ post) (by rw [ansM_len]; exact hfit) hsw
      exact absurd (isSubstr_of_suffix ansM s1 mid ⟨p1, hp1⟩ h1) (by simp [hmid])
    · obtain ⟨hs, hp⟩ := startsWith_seam ansM s1 (srcM ++ post)
        (by rw [ansM_len]; exact hseam) hsw
      rw [ansM_len] at hp
      set j := s1.length with hj
      rw [List.take_append_eq_append_take,
        Nat.sub_eq_zero_of_le (by rw [srcM_len]; omega : 7 - j ≤ srcM.length),
        List.take_zero, List.append_nil] at hp
      rw [hs] at hp
      exact ans_src_no_overlap j hseam hs11 hp

/-! ### Answer extraction: spec rendering and characterization -/

/-- Characterization of the code on a well-formed sandwich
`pre ++ "ANSWER:" ++ mid ++ "SOURCES:" ++ post`. -/
theorem extractAnswer_sandwich (pre mid post : List Char)
    (h1 : isSubstr ansM pre = false) (h2 : isSubstr ansM mid = false)
    (h3 : isSubstr srcM mid = false) :
    extractAnswer (pre ++ ansM ++ mid ++ srcM ++ post) = pyStrip mid := by
  have hassoc : pre ++ ansM ++ mid ++ srcM ++ post
      = pre ++ ansM ++ ((mid ++ srcM) ++ post) := by
    simp [List.append_assoc]
  rw [hassoc]
  have hne1 : NoEarly ansM pre (ansM ++ ((mid ++ srcM) ++ post)) := by
    have h := noEarly_of_seam ansM ansM pre ((mid ++ srcM) ++ post) h1 (by omega)
      (fun j hj h1j => by
        rw [ansM_len] at hj ⊢
        exact ans_self_no_overlap j hj h1j)
    exact h
  have e1 : splitFirst ansM (pre ++ ansM ++ ((mid ++ srcM) ++ post))
      = some (pre, (mid ++ srcM) ++ post) :=
    splitFirst_at_marker ansM pre ((mid ++ srcM) ++ post) hne1
  rw [extractAnswer, e1]
  show pyStrip (takeUntil srcM (takeUntil ansM ((mid ++ srcM) ++ post))) = pyStrip mid
  have e2 : takeUntil ansM ((mid ++ srcM) ++ post)
      = (mid ++ srcM) ++ takeUntil ansM post :=
    takeUntil_clean ansM (mid ++ srcM) post (noEarly_ans_mid_src mid post h2)
  rw [e2]
  have hne3 : NoEarly srcM mid (srcM ++ takeUntil ansM post) := by
    have h := noEarly_of_seam srcM srcM mid (takeUntil ansM post) h3 (by omega)
      (fun j hj h1j => by
        rw [srcM_len] at hj ⊢
        exact src_self_no_overlap j hj h1j)
    exact h
  have e3 : takeUntil srcM (mid ++ srcM ++ takeUntil ansM post) = mid :=
    takeUntil_at_marker srcM mid (takeUntil ansM post) hne3
  rw [List.append_assoc, ← List.append_assoc mid srcM (takeUntil ansM post), e3]

/-- The no-marker case of `_extract_answer`: the whole (stripped) reply. -/
theorem extractAnswer_no_marker (t : List Char)
    (ha : isSubstr ansM t = false) (hs : isSubstr srcM t = false) :
    extractAnswer t = pyStrip t := by
  rw [extractAnswer, splitFirst_eq_none_of_not_substr ansM t ha,
    takeUntil_of_not_substr srcM t hs]

/-- Characterization of the code's truncation at a second `ANSWER:` marker:
the kept segment is the portion between the first two occurrences, then cut
at its first `SOURCES:` marker and stripped. -/
theorem extractAnswer_double_ans (pre mid rest : List Char)
    (h1 : isSubstr ansM pre = false) (h2 : isSubstr ansM mid = false) :
    extractAnswer (pre ++ ansM ++ mid ++ ansM ++ rest)
      = pyStrip (takeUntil srcM mid) := by
  have hassoc : pre ++ ansM ++ mid ++ ansM ++ rest
      = pre ++ ansM ++ (mid ++ ansM ++ rest) := by
    simp [List.append_assoc]
  rw [hassoc]
  have hne1 : NoEarly ansM pre (ansM ++ (mid ++ ansM ++ rest)) :=
    noEarly_of_seam ansM ansM pre (mid ++ ansM ++ rest) h1 (by omega)
      (fun j hj h1j => by
        rw [ansM_len] at hj ⊢
        exact ans_self_no_overlap j hj h1j)
  have e1 : splitFirst ansM (pre ++ ansM ++ (mid ++ ansM ++ rest))
      = some (pre, mid ++ ansM ++ rest) :=
    splitFirst_at_marker ansM pre (mid ++ ansM ++ rest) hne1
  rw [extractAnswer, e1]
  show pyStrip (takeUntil srcM (takeUntil ansM (mid ++ ansM ++ rest)))
      = pyStrip (takeUntil srcM mid)
  have hne2 : NoEarly ansM mid (ansM ++ rest) :=
    noEarly_of_seam ansM ansM mid rest h2 (by omega)
      (fun j hj h1j => by
        rw [ansM_len] at hj ⊢
        exact ans_self_no_overlap j hj h1j)
  rw [takeUntil_at_marker ansM mid rest hne2]

/-- Characterization of the code when `ANSWER:` occurs exactly once: the
segment after it is cut at its first `SOURCES:` marker (if any) and
stripped; with no `SOURCES:` marker either this is the whole stripped
remainder of the reply. -/
theorem extractAnswer_ans_only (pre mid : List Char)
    (h1 : isSubstr ansM pre = false) (h2 : isSubstr ansM mid = false) :
    extractAnswer (pre ++ ansM ++ mid) = pyStrip (takeUntil srcM mid) := by
  have hne1 : NoEarly ansM pre (ansM ++ mid) :=
    noEarly_of_seam ansM ansM pre mid h1 (by omega)
      (fun j hj h1j => by
        rw [ansM_len] at hj ⊢
        exact ans_self_no_overlap j hj h1j)
  have e1 : splitFirst ansM (pre ++ ansM ++ mid) = some (pre, mid) :=
    splitFirst_at_marker ansM pre mid hne1
  rw [extractAnswer, e1]
  show pyStrip (takeUntil srcM (takeUntil ansM mid)) = pyStrip (takeUntil srcM mid)
  rw [takeUntil_of_not_substr ansM mid h2]

/-- Characterization of the code when only `SOURCES:` occurs: the stripped
portion before its first occurrence. -/
theorem extractAnswer_src_only (pre post : List Char)
    (h1 : isSubstr ansM (pre ++ srcM ++ post) = false)
    (h2 : isSubstr srcM pre = false) :
    extractAnswer (pre ++ srcM ++ post) = pyStrip pre := by
  rw [extractAnswer, splitFirst_eq_none_of_not_substr ansM _ h1]
  show pyStrip (takeUntil srcM (pre ++ srcM ++ post)) = pyStrip pre
  have hne : NoEarly srcM pre (srcM ++ post) :=
    noEarly_of_seam srcM srcM pre post h2 (by omega)
      (fun j hj h1j => by
        rw [srcM_len] at hj ⊢
        exact src_self_no_overlap j hj h1j)
  rw [takeUntil_at_marker srcM pre post hne]

/-! ### Tokenizer lemmas -/

theorem btLen_le : ∀ (l : List Char) (nw : Bool), btLen l nw ≤ l.length := by
  intro l
  induction l with
  | nil => intro nw; simp [btLen]
  | cons c rest ih =>
    intro nw
    rw [btLen]
    split
    · simp
    · exact Nat.le_trans (ih (isWordChar c)) (by simp)

theorem scanTok_nil : ∀ (f : Nat) (prev : Bool), scanTok f prev [] = [] := by
  intro f prev
  cases f <;> rfl

/-- The fuel is irrelevant as long as it is at least the string length. -/
theorem scanTok_congr : ∀ (f g : Nat) (l : List Char) (prev : Bool),
    l.length ≤ f → l.length ≤ g → scanTok f prev l = scanTok g prev l := by
  intro f
  induction f with
  | zero =>
    intro g l prev hf _
    have h : l = [] := List.length_eq_zero.mp (Nat.le_zero.mp hf)
    subst h
    rw [scanTok_nil, scanTok_nil]
  | succ f ih =>
    intro g l prev hf hg
    cases l with
    | nil => rw [scanTok_nil, scanTok_nil]
    | cons c rest =>
      cases g with
      | zero => simp at hg
      | succ g =>
        simp only [List.length_cons] at hf hg
        rw [scanTok, scanTok]
        set run := List.takeWhile isClsChar (c :: rest) with hrun
        set rst := List.dropWhile isClsChar (c :: rest) with hrst
        set k := btLen run.reverse (headWord rst) with hk
        have hlen : run.length + rst.length = rest.length + 1 := by
          rw [hrun, hrst, ← List.length_append, List.takeWhile_append_dropWhile,
            List.length_cons]
        have hkr : k ≤ run.length := by
          rw [hk]
          exact Nat.le_trans (btLen_le run.reverse (headWord rst)) (by simp)
        by_cases hcond : ((prev != isWordChar c) && isClsChar c) = true
        · rw [if_pos hcond, if_pos hcond]
          by_cases hk0 : k = 0
          · rw [if_pos hk0, if_pos hk0]
            exact ih g rest (isWordChar c) (by omega) (by omega)
          · rw [if_neg hk0, if_neg hk0]
            have hk1 : 1 ≤ k := Nat.one_le_iff_ne_zero.mpr hk0
            congr 1
            refine ih g (run.drop k ++ rst) _ ?_ ?_ <;>
              simp only [List.length_append, List.length_drop] <;> omega
        · rw [if_neg hcond, if_neg hcond]
          exact ih g rest (isWordChar c) (by omega) (by omega)

theorem findTokens_eq_scanAt (s : List Char) : findTokens s = scanAt false s := rfl

theorem scanAt_nil (prev : Bool) : scanAt prev [] = [] := rfl

/-- One-step unfolding of the scanner in fuel-free form. -/
theorem scanAt_cons (prev : Bool) (c : Char) (rest : List Char) :
    scanAt prev (c :: rest) =
      if (prev != isWordChar c) && isClsChar c then
        let run := List.takeWhile isClsChar (c :: rest)
        let rst := List.dropWhile isClsChar (c :: rest)
        let k := btLen run.reverse (headWord rst)
        if k = 0 then scanAt (isWordChar c) rest
        else run.take k :: scanAt (isWordChar ((run.take k).getLastD c)) (run.drop k ++ rst)
      else scanAt (isWordChar c) rest := by
  show scanTok (c :: rest).length prev (c :: rest) = _
  simp only [List.length_cons]
  rw [scanTok]
  set run := List.takeWhile isClsChar (c :: rest) with hrun
  set rst := List.dropWhile isClsChar (c :: rest) with hrst
  set k := btLen run.reverse (headWord rst) with hk
  have hlen : run.length + rst.length = rest.length + 1 := by
    rw [hrun, hrst, ← List.length_append, List.takeWhile_append_dropWhile, List.length_cons]
  have hkr : k ≤ run.length := by
    rw [hk]
    exact Nat.le_trans (btLen_le run.reverse (headWord rst)) (by simp)
  by_cases hcond : ((prev != isWordChar c) && isClsChar c) = true
  · rw [if_pos hcond, if_pos hcond]
    by_cases hk0 : k = 0
    · rw [if_pos hk0, if_pos hk0]
      rfl
    · rw [if_neg hk0, if_neg hk0]
      have hk1 : 1 ≤ k := Nat.one_le_iff_ne_zero.mpr hk0
      congr 1
      refine scanTok_congr rest.length (run.drop k ++ rst).length (run.drop k ++ rst) _ ?_ ?_ <;>
        simp only [List.length_append, List.length_drop] <;> omega
  · rw [if_neg hcond, if_neg hcond]
    rfl

theorem takeWhile_append_stop (p : Char → Bool) (x : Char) (hx : p x = false)
    (r : List Char) : ∀ l : List Char, List.takeWhile p (l ++ x :: r) = List.takeWhile p l := by
  intro l
  induction l with
  | nil => simp [List.takeWhile_cons, hx]
  | cons c t ih =>
    rw [List.cons_append, List.takeWhile_cons, List.takeWhile_cons]
    by_cases hc : p c = true
    · rw [if_pos hc, if_pos hc, ih]
    · rw [if_neg hc, if_neg hc]

theorem dropWhile_append_stop (p : Char → Bool) (x : Char) (hx : p x = false)
    (r : List Char) :
    ∀ l : List Char, List.dropWhile p (l ++ x :: r) = List.dropWhile p l ++ x :: r := by
  intro l
  induction l with
  | nil => simp [List.dropWhile_cons, hx]
  | cons c t ih =>
    rw [List.cons_append, List.dropWhile_cons, List.dropWhile_cons]
    by_cases hc : p c = true
    · rw [if_pos hc, if_pos hc, ih]
    · rw [if_neg hc, if_neg hc, List.cons_append]

theorem headWord_append_sep (l s2 : List Char) : headWord (l ++ ' ' :: s2) = headWord l := by
  cases l with
  | nil => simp [headWord, isWordChar]
  | cons c t => rfl

/-- The scanner distributes over a space separator: no token crosses a space,
and the space resets the boundary context.  This is the key compositionality
property behind query expansion. -/
theorem scanAt_seam : ∀ (n : Nat) (s1 : List Char), s1.length ≤ n →
    ∀ (prev : Bool) (s2 : List Char),
      scanAt prev (s1 ++ ' ' :: s2) = scanAt prev s1 ++ scanAt false s2 := by
  intro n
  induction n with
  | zero =>
    intro s1 h1 prev s2
    have h : s1 = [] := List.length_eq_zero.mp (Nat.le_zero.mp h1)
    subst h
    rw [List.nil_append, scanAt_nil, List.nil_append, scanAt_cons]
    have hcls : isClsChar ' ' = false := by decide
    have hw : isWordChar ' ' = false := by decide
    rw [if_neg (by simp [hcls]), hw]
  | succ n ih =>
    intro s1 h1 prev s2
    cases s1 with
    | nil =>
      rw [List.nil_append, scanAt_nil, List.nil_append, scanAt_cons]
      have hcls : isClsChar ' ' = false := by decide
      have hw : isWordChar ' ' = false := by decide
      rw [if_neg (by simp [hcls]), hw]
    | cons c t =>
      simp only [List.length_cons] at h1
      rw [List.cons_append, scanAt_cons, scanAt_cons]
      have hcls : isClsChar ' ' = false := by decide
      have hrun : List.takeWhile isClsChar (c :: (t ++ ' ' :: s2))
          = List.takeWhile isClsChar (c :: t) := by
        rw [← List.cons_append]
        exact takeWhile_append_stop isClsChar ' ' hcls s2 (c :: t)
      have hrst : List.dropWhile isClsChar (c :: (t ++ ' ' :: s2))
          = List.dropWhile isClsChar (c :: t) ++ ' ' :: s2 := by
        rw [← List.cons_append]
        exact dropWhile_append_stop isClsChar ' ' hcls s2 (c :: t)
      rw [hrun, hrst]
      simp only [headWord_append_sep]
      set run := List.takeWhile isClsChar (c :: t) with hrundef
      set rst := List.dropWhile isClsChar (c :: t) with hrstdef
      set k := btLen run.reverse (headWord rst) with hkdef
      have hlen : run.length + rst.length = t.length + 1 := by
        rw [hrundef, hrstdef, ← List.length_append, List.takeWhile_append_dropWhile,
          List.length_cons]
      have hkr : k ≤ run.length := by
        rw [hkdef]
        exact Nat.le_trans (btLen_le run.reverse (headWord rst)) (by simp)
      by_cases hcond : ((prev != isWordChar c) && isClsChar c) = true
      · rw [if_pos hcond, if_pos hcond]
        by_cases hk0 : k = 0
        · rw [if_pos hk0, if_pos hk0]
          exact ih t (by omega) (isWordChar c) s2
        · rw [if_neg hk0, if_neg hk0]
          have hk1 : 1 ≤ k := Nat.one_le_iff_ne_zero.mpr hk0
          rw [← List.append_assoc, ih (run.drop k ++ rst)
            (by simp only [List.length_append, List.length_drop]; omega) _ s2]
          simp
      · rw [if_neg hcond, if_neg hcond]
        exact ih t (by omega) (isWordChar c) s2

/-- Every token produced by the scanner is nonempty, consists of class
characters, and draws its characters from the input. -/
theorem scanAt_tokens : ∀ (n : Nat) (l : List Char), l.length ≤ n → ∀ (prev : Bool)
    (t : List Char), t ∈ scanAt prev l →
    t ≠ [] ∧ t.all isClsChar = true ∧ ∀ c ∈ t, c ∈ l := by
  intro n
  induction n with
  | zero =>
    intro l hl prev t ht
    have h : l = [] := List.length_eq_zero.mp (Nat.le_zero.mp hl)
    subst h
    rw [scanAt_nil] at ht
    simp at ht
  | succ n ih =>
    intro l hl prev t ht
    cases l with
    | nil =>
      rw [scanAt_nil] at ht
      simp at ht
    | cons c rest =>
      simp only [List.length_cons] at hl
      rw [scanAt_cons] at ht
      set run := List.takeWhile isClsChar (c :: rest) with hrundef
      set rst := List.dropWhile isClsChar (c :: rest) with hrstdef
      set k := btLen run.reverse (headWord rst) with hkdef
      have hlen : run.length + rst.length = rest.length + 1 := by
        rw [hrundef, hrstdef, ← List.length_append, List.takeWhile_append_dropWhile,
          List.length_cons]
      have hkr : k ≤ run.length := by
        rw [hkdef]
        exact Nat.le_trans (btLen_le run.reverse (headWord rst)) (by simp)
      have hsubrun : ∀ x ∈ run, x ∈ c :: rest := by
        intro x hx
        rw [hrundef] at hx
        exact (List.takeWhile_sublist isClsChar).subset hx
      have hsubrst : ∀ x ∈ rst, x ∈ c :: rest := by
        intro x hx
        rw [hrstdef] at hx
        exact (List.dropWhile_sublist (p := isClsChar) (l := c :: rest)).subset hx
      by_cases hcond : ((prev != isWordChar c) && isClsChar c) = true
      · rw [if_pos hcond] at ht
        by_cases hk0 : k = 0
        · rw [if_pos hk0] at ht
          obtain ⟨h1, h2, h3⟩ := ih rest (by omega) (isWordChar c) t ht
          exact ⟨h1, h2, fun x hx => List.mem_cons_of_mem c (h3 x hx)⟩
        · rw [if_neg hk0] at ht
          have hk1 : 1 ≤ k := Nat.one_le_iff_ne_zero.mpr hk0
          have hrunlen : 1 ≤ run.length := by
            have hcl : isClsChar c = true := (Bool.and_eq_true _ _ |>.mp hcond).2
            rw [hrundef, List.takeWhile_cons, if_pos hcl]
            simp
          rcases List.mem_cons.mp ht with rfl | htl
          · refine ⟨?_, ?_, ?_⟩
            · intro hnil
              have := congrArg List.length hnil
              simp only [List.length_take, List.length_nil] at this
              omega
            · rw [List.all_eq_true]
              intro x hx
              have hxr : x ∈ run := List.take_subset k run hx
              rw [hrundef] at hxr
              exact List.mem_takeWhile_imp hxr
            · intro x hx
              exact hsubrun x (List.take_subset k run hx)
          · obtain ⟨h1, h2, h3⟩ := ih (run.drop k ++ rst)
              (by simp only [List.length_append, List.length_drop]; omega) _ t htl
            refine ⟨h1, h2, fun x hx => ?_⟩
            rcases List.mem_append.mp (h3 x hx) with hxa | hxb
            · exact hsubrun x (List.drop_subset k run hxa)
            · exact hsubrst x hxb
      · rw [if_neg hcond] at ht
        obtain ⟨h1, h2, h3⟩ := ih rest (by omega) (isWordChar c) t ht
        exact ⟨h1, h2, fun x hx => List.mem_cons_of_mem c (h3 x hx)⟩

theorem btLen_concat_word (ys : List Char) (y : Char) (hy : isWordChar y = true) :
    btLen (ys ++ [y]).reverse false = ys.length + 1 := by
  rw [List.reverse_append, List.reverse_singleton, List.singleton_append, btLen, hy]
  simp

/-- A nonempty all-class token whose first and last characters are
alphanumeric is scanned as exactly itself. -/
theorem scanAt_clean (t : List Char) (hne : t ≠ [])
    (hall : t.all isClsChar = true)
    (hh : (t.headD ' ').isAlphanum = true)
    (hl : (t.getLastD ' ').isAlphanum = true) :
    scanAt false t = [t] := by
  cases t with
  | nil => exact absurd rfl hne
  | cons c ts =>
    rcases List.eq_nil_or_concat (c :: ts) with hcon | ⟨ys, y, hcon⟩
    · simp at hcon
    rw [List.concat_eq_append] at hcon
    have hh' : c.isAlphanum = true := hh
    have hcl : isClsChar c = true := by
      rw [List.all_eq_true] at hall
      exact hall c (by simp)
    have hw : isWordChar c = true := by
      rw [isWordChar, hh']
      rfl
    have hlast : y.isAlphanum = true := by
      rw [hcon, List.getLastD_concat] at hl
      exact hl
    have hwy : isWordChar y = true := by
      rw [isWordChar, hlast]
      rfl
    rw [scanAt_cons, if_pos (by rw [hw]; simp [hcl])]
    have hrun : List.takeWhile isClsChar (c :: ts) = c :: ts :=
      List.takeWhile_eq_self_iff.mpr (List.all_eq_true.mp hall)
    have hrst : List.dropWhile isClsChar (c :: ts) = [] :=
      List.dropWhile_eq_nil_iff.mpr (List.all_eq_true.mp hall)
    rw [hrun, hrst]
    have hbt : btLen (c :: ts).reverse (headWord []) = (c :: ts).length := by
      rw [hcon]
      show btLen (ys ++ [y]).reverse false = (ys ++ [y]).length
      rw [btLen_concat_word ys y hwy]
      simp
    simp only [hbt]
    rw [if_neg (by simp), List.take_length, List.drop_length, List.nil_append, scanAt_nil]

/-- Scanning the space-joined keyword list recovers exactly the keywords,
provided each keyword is a clean token. -/
theorem scanAt_joinSp : ∀ kws : List (List Char),
    (∀ kw ∈ kws, kw ≠ [] ∧ kw.all isClsChar = true ∧ (kw.headD ' ').isAlphanum = true ∧
      (kw.getLastD ' ').isAlphanum = true) →
    scanAt false (joinSp kws) = kws := by
  intro kws
  induction kws with
  | nil => intro _; rfl
  | cons t rest ih =>
    intro hclean
    cases rest with
    | nil =>
      obtain ⟨h1, h2, h3, h4⟩ := hclean t (by simp)
      rw [joinSp]
      exact scanAt_clean t h1 h2 h3 h4
    | cons t2 rest2 =>
      have hj : joinSp (t :: t2 :: rest2) = t ++ ' ' :: joinSp (t2 :: rest2) := rfl
      rw [hj, scanAt_seam (t.length) t (le_refl _) false (joinSp (t2 :: rest2))]
      obtain ⟨h1, h2, h3, h4⟩ := hclean t (by simp)
      rw [scanAt_clean t h1 h2 h3 h4, ih (fun kw hkw => hclean kw (by simp [hkw]))]
      rfl

/-! ### Deduplication and filtering lemmas -/

theorem mem_of_mem_dedupSeen {α : Type} [DecidableEq α] :
    ∀ (seen l : List α) (x : α), x ∈ dedupSeen seen l → x ∈ l := by
  intro seen l
  induction l generalizing seen with
  | nil => intro x hx; simp [dedupSeen] at hx
  | cons a as ih =>
    intro x hx
    rw [dedupSeen] at hx
    by_cases ha : a ∈ seen
    · rw [if_pos ha] at hx
      exact List.mem_cons_of_mem a (ih seen x hx)
    · rw [if_neg ha] at hx
      rcases List.mem_cons.mp hx with rfl | hx'
      · simp
      · exact List.mem_cons_of_mem a (ih (a :: seen) x hx')

theorem dedupSeen_eq_nil_of_seen {α : Type} [DecidableEq α] :
    ∀ (seen l : List α), (∀ x ∈ l, x ∈ seen) → dedupSeen seen l = [] := by
  intro seen l
  induction l generalizing seen with
  | nil => intro _; rfl
  | cons a as ih =>
    intro h
    rw [dedupSeen, if_pos (h a (by simp))]
    exact ih seen fun x hx => h x (by simp [hx])

theorem dedupSeen_append_absorb {α : Type} [DecidableEq α] :
    ∀ (a : List α) (seen b : List α), (∀ x ∈ b, x ∈ a ∨ x ∈ seen) →
      dedupSeen seen (a ++ b) = dedupSeen seen a := by
  intro a
  induction a with
  | nil =>
    intro seen b h
    rw [List.nil_append]
    exact dedupSeen_eq_nil_of_seen seen b fun x hx => (h x hx).resolve_left (by simp)
  | cons c cs ih =>
    intro seen b h
    rw [List.cons_append, dedupSeen, dedupSeen]
    by_cases hc : c ∈ seen
    · rw [if_pos hc, if_pos hc]
      refine ih seen b fun x hx => ?_
      rcases h x hx with hxa | hxs
      · rcases List.mem_cons.mp hxa with rfl | hx'
        · exact Or.inr hc
        · exact Or.inl hx'
      · exact Or.inr hxs
    · rw [if_neg hc, if_neg hc]
      congr 1
      refine ih (c :: seen) b fun x hx => ?_
      rcases h x hx with hxa | hxs
      · rcases List.mem_cons.mp hxa with rfl | hx'
        · exact Or.inr (by simp)
        · exact Or.inl hx'
      · exact Or.inr (by simp [hxs])

theorem filter_append_all {α : Type} (p : α → Bool) (a b : List α)
    (h : ∀ x ∈ b, p x = true) : (a ++ b).filter p = a.filter p ++ b := by
  rw [List.filter_append, List.filter_eq_self.mpr h]

/-! ### Lower-casing lemmas -/

theorem toNat_ofNat_valid (n : Nat) (h : n.isValidChar) : (Char.ofNat n).toNat = n := by
  unfold Char.ofNat
  rw [dif_pos h]
  rfl

theorem toLower_eq (c : Char) :
    Char.toLower c = if c.toNat ≥ 65 ∧ c.toNat ≤ 90 then Char.ofNat (c.toNat + 32) else c := rfl

theorem toLower_not_upper (c : Char) :
    ¬(65 ≤ (Char.toLower c).toNat ∧ (Char.toLower c).toNat ≤ 90) := by
  rw [toLower_eq]
  split
  · rename_i h
    have hv : (c.toNat + 32).isValidChar := by
      left
      omega
    rw [toNat_ofNat_valid _ hv]
    omega
  · rename_i h
    omega

theorem toLower_eq_self_of_not_upper (c : Char)
    (h : ¬(65 ≤ c.toNat ∧ c.toNat ≤ 90)) : Char.toLower c = c := by
  rw [toLower_eq, if_neg (by omega)]

theorem toLower_toLower (c : Char) : Char.toLower (Char.toLower c) = Char.toLower c :=
  toLower_eq_self_of_not_upper _ (by have := toLower_not_upper c; omega)

theorem map_fix {α : Type} (f : α → α) :
    ∀ l : List α, (∀ x ∈ l, f x = x) → l.map f = l := by
  intro l
  induction l with
  | nil => intro _; rfl
  | cons a as ih =>
    intro h
    rw [List.map_cons, h a (by simp), ih fun x hx => h x (by simp [hx])]

theorem joinSp_map (f : Char → Char) (hf : f ' ' = ' ') :
    ∀ kws : List (List Char), (joinSp kws).map f = joinSp (kws.map (List.map f)) := by
  intro kws
  induction kws with
  | nil => rfl
  | cons t rest ih =>
    cases rest with
    | nil => rfl
    | cons t2 rest2 =>
      have hj : joinSp (t :: t2 :: rest2) = t ++ ' ' :: joinSp (t2 :: rest2) := rfl
      rw [hj, List.map_append, List.map_cons, hf, ih]
      rfl

theorem toList_expand (q : String) (l : List Char) :
    (q ++ " " ++ String.mk l).toList = q.toList ++ ' ' :: l := by
  show (q ++ " " ++ String.mk l).data = q.data ++ ' ' :: l
  rw [String.data_append, String.data_append]
  show (q.data ++ [' ']) ++ l = q.data ++ ' ' :: l
  rw [List.append_assoc]
  rfl

/-- Keyword extraction is invariant under query expansion whenever every
extracted keyword begins and ends with an alphanumeric character. -/
theorem extractKeywords_expand_of_clean (q : String)
    (hclean : ∀ kw ∈ extractKeywords q,
      (kw.headD ' ').isAlphanum = true ∧ (kw.getLastD ' ').isAlphanum = true) :
    extractKeywords (expandQuery q) = extractKeywords q := by
  cases hk : extractKeywords q with
  | nil =>
    have he : expandQuery q = q := by
      rw [expandQuery, hk]
    rw [he]
    exact hk
  | cons k0 krest =>
    have he : expandQuery q = q ++ " " ++ String.mk (joinSp (k0 :: krest)) := by
      rw [expandQuery, hk]
    set kws := k0 :: krest with hkws
    -- facts about the extracted keywords
    have hmemF : ∀ kw ∈ kws, kw ∈ (findTokens (lowerChars q)).filter keepTok := by
      intro kw hkw
      exact mem_of_mem_dedupSeen [] _ kw (hk ▸ hkw : kw ∈ extractKeywords q)
    have hmemT : ∀ kw ∈ kws, kw ∈ findTokens (lowerChars q) :=
      fun kw hkw => (List.mem_filter.mp (hmemF kw hkw)).1
    have hkeep : ∀ kw ∈ kws, keepTok kw = true :=
      fun kw hkw => (List.mem_filter.mp (hmemF kw hkw)).2
    have htokprops : ∀ kw ∈ kws, kw ≠ [] ∧ kw.all isClsChar = true ∧
        ∀ c ∈ kw, c ∈ lowerChars q := by
      intro kw hkw
      have h := scanAt_tokens (lowerChars q).length (lowerChars q) (le_refl _) false kw
        ((findTokens_eq_scanAt (lowerChars q)) ▸ hmemT kw hkw)
      exact h
    have hfix : ∀ kw ∈ kws, kw.map Char.toLower = kw := by
      intro kw hkw
      refine map_fix Char.toLower kw fun c hc => ?_
      have hcl : c ∈ lowerChars q := (htokprops kw hkw).2.2 c hc
      rw [lowerChars] at hcl
      obtain ⟨c0, _, rfl⟩ := List.mem_map.mp hcl
      exact toLower_toLower c0
    -- the lower-cased expanded query
    have hlower : lowerChars (expandQuery q) = lowerChars q ++ ' ' :: joinSp kws := by
      rw [lowerChars, he, toList_expand, List.map_append, List.map_cons]
      have hsp : Char.toLower ' ' = ' ' := rfl
      rw [hsp, joinSp_map Char.toLower rfl kws, map_fix (List.map Char.toLower) kws hfix]
      rfl
    -- tokenizing it
    have htok : findTokens (lowerChars (expandQuery q))
        = findTokens (lowerChars q) ++ kws := by
      rw [hlower, findTokens_eq_scanAt, findTokens_eq_scanAt,
        scanAt_seam (lowerChars q).length (lowerChars q) (le_refl _) false (joinSp kws)]
      congr 1
      refine scanAt_joinSp kws fun kw hkw => ?_
      obtain ⟨h1, h2, _⟩ := htokprops kw hkw
      obtain ⟨h3, h4⟩ := hclean kw (hk ▸ hkw)
      exact ⟨h1, h2, h3, h4⟩
    -- filtering and deduplicating
    show dedupSeen [] ((findTokens (lowerChars (expandQuery q))).filter keepTok) = kws
    rw [htok, filter_append_all keepTok _ kws hkeep,
      dedupSeen_append_absorb _ [] kws fun kw hkw => Or.inl (hmemF kw hkw)]
    exact hk

/-! ### Stable-sort lemmas -/

theorem insertDesc_mem {β : Type} (key : β → ℚ) :
    ∀ (l : List β) (x y : β), y ∈ insertDesc key x l → y = x ∨ y ∈ l := by
  intro l
  induction l with
  | nil =>
    intro x y hy
    rw [insertDesc] at hy
    simp at hy
    simp [hy]
  | cons z zs ih =>
    intro x y hy
    rw [insertDesc] at hy
    split at hy
    · rcases List.mem_cons.mp hy with rfl | h2
      · exact Or.inl rfl
      · exact Or.inr h2
    · rcases List.mem_cons.mp hy with rfl | h2
      · simp
      · rcases ih x y h2 with h3 | h3
        · exact Or.inl h3
        · exact Or.inr (by simp [h3])

theorem sortDesc_subset {β : Type} (key : β → ℚ) (L : List β) :
    ∀ y ∈ sortDesc key L, y ∈ L := by
  suffices h : ∀ (l : List β) (acc : List β) (y : β),
      y ∈ l.foldl (fun acc x => insertDesc key x acc) acc → y ∈ acc ∨ y ∈ l by
    intro y hy
    rcases h L [] y hy with h1 | h1
    · simp at h1
    · exact h1
  intro l
  induction l with
  | nil =>
    intro acc y hy
    exact Or.inl hy
  | cons x xs ih =>
    intro acc y hy
    rw [List.foldl_cons] at hy
    rcases ih (insertDesc key x acc) y hy with h1 | h1
    · rcases insertDesc_mem key acc x y h1 with rfl | h2
      · simp
      · exact Or.inl h2
    · exact Or.inr (by simp [h1])

theorem insertDesc_pairwise {β : Type} (key : β → ℚ) (idx : β → Nat) (x : β) :
    ∀ l : List β, l.Pairwise (lexGT key idx) → (∀ e ∈ l, idx e < idx x) →
      (insertDesc key x l).Pairwise (lexGT key idx) := by
  intro l
  induction l with
  | nil =>
    intro _ _
    simp [insertDesc]
  | cons y ys ih =>
    intro hl hidx
    rw [List.pairwise_cons] at hl
    obtain ⟨hy, hys⟩ := hl
    rw [insertDesc]
    split
    · rename_i hkey
      rw [List.pairwise_cons]
      refine ⟨?_, List.pairwise_cons.mpr ⟨hy, hys⟩⟩
      intro z hz
      rcases List.mem_cons.mp hz with rfl | hz2
      · exact Or.inl hkey
      · rcases hy z hz2 with h1 | h1
        · exact Or.inl (lt_trans h1 hkey)
        · exact Or.inl (h1.1 ▸ hkey)
    · rename_i hkey
      rw [List.pairwise_cons]
      constructor
      · intro z hz
        rcases insertDesc_mem key ys x z hz with rfl | hz2
        · rcases lt_or_eq_of_le (le_of_not_lt hkey) with h1 | h1
          · exact Or.inl h1
          · exact Or.inr ⟨h1.symm, hidx y (by simp)⟩
        · exact hy z hz2
      · exact ih hys fun e he => hidx e (by simp [he])

theorem sortDesc_pairwise {β : Type} (key : β → ℚ) (idx : β → Nat) (L : List β)
    (hL : L.Pairwise fun a b => idx a < idx b) :
    (sortDesc key L).Pairwise (lexGT key idx) := by
  suffices h : ∀ (l : List β) (acc : List β), acc.Pairwise (lexGT key idx) →
      (∀ e ∈ acc, ∀ x ∈ l, idx e < idx x) → l.Pairwise (fun a b => idx a < idx b) →
      (l.foldl (fun acc x => insertDesc key x acc) acc).Pairwise (lexGT key idx) by
    exact h L [] (by simp) (by simp) hL
  intro l
  induction l with
  | nil =>
    intro acc hacc _ _
    exact hacc
  | cons x xs ih =>
    intro acc hacc hord hl
    rw [List.pairwise_cons] at hl
    rw [List.foldl_cons]
    refine ih (insertDesc key x acc) ?_ ?_ hl.2
    · exact insertDesc_pairwise key idx x acc hacc fun e he => hord e he x (by simp)
    · intro e he z hz
      rcases insertDesc_mem key acc x e he with rfl | he2
      · exact hl.1 z hz
      · exact hord e he2 z (by simp [hz])

theorem tagIdx_ge {β : Type} : ∀ (l : List β) (n : Nat) (e : Nat × β),
    e ∈ tagIdx n l → n ≤ e.1 := by
  intro l
  induction l with
  | nil => intro n e he; simp [tagIdx] at he
  | cons x xs ih =>
    intro n e he
    rw [tagIdx] at he
    rcases List.mem_cons.mp he with rfl | he2
    · simp
    · exact Nat.le_trans (by omega) (ih (n + 1) e he2)

theorem tagIdx_pairwise {β : Type} : ∀ (l : List β) (n : Nat),
    (tagIdx n l).Pairwise fun a b => a.1 < b.1 := by
  intro l
  induction l with
  | nil => intro n; simp [tagIdx]
  | cons x xs ih =>
    intro n
    rw [tagIdx, List.pairwise_cons]
    exact ⟨fun e he => Nat.lt_of_lt_of_le (by omega) (tagIdx_ge xs (n + 1) e he), ih (n + 1)⟩

theorem map_snd_tagIdx {β : Type} : ∀ (l : List β) (n : Nat),
    (tagIdx n l).map Prod.snd = l := by
  intro l
  induction l with
  | nil => intro n; rfl
  | cons x xs ih =>
    intro n
    rw [tagIdx, List.map_cons, ih (n + 1)]

theorem insertDesc_map_snd {β : Type} (key : β → ℚ) :
    ∀ (l : List (Nat × β)) (x : Nat × β),
      (insertDesc (fun p => key p.2) x l).map Prod.snd
        = insertDesc key x.2 (l.map Prod.snd) := by
  intro l
  induction l with
  | nil => intro x; rfl
  | cons y ys ih =>
    intro x
    rw [insertDesc, List.map_cons, insertDesc]
    by_cases h : key y.2 < key x.2
    · rw [if_pos h, if_pos h]
      rfl
    · rw [if_neg h, if_neg h, List.map_cons, ih x]

theorem sortDesc_map_snd {β : Type} (key : β → ℚ) (L : List (Nat × β)) :
    (sortDesc (fun p => key p.2) L).map Prod.snd = sortDesc key (L.map Prod.snd) := by
  suffices h : ∀ (l : List (Nat × β)) (acc : List (Nat × β)),
      (l.foldl (fun acc x => insertDesc (fun p => key p.2) x acc) acc).map Prod.snd
        = (l.map Prod.snd).foldl (fun acc x => insertDesc key x acc) (acc.map Prod.snd) by
    exact h L []
  intro l
  induction l with
  | nil => intro acc; rfl
  | cons x xs ih =>
    intro acc
    rw [List.foldl_cons, List.map_cons, List.foldl_cons, ih (insertDesc (fun p => key p.2) x acc),
      insertDesc_map_snd key acc x]

/-! ### Confidence-scorer lemmas and the spec-side formula -/

theorem docFrac_eq_specFrac (q : String) : docFrac q = specFrac q := by
  funext content
  rw [docFrac, specFrac]
  set qw := dedupSeen [] (wordTokens (lowerChars q)) with hqw
  set cw := wordTokens (lowerChars content) with hcw
  set m := qw.countP fun w => decide (w ∈ cw) with hm
  by_cases h : 0 < m
  · rw [if_pos h]
    have hle : m ≤ qw.length := List.countP_le_length _
    have hne : qw.isEmpty = false := by
      cases hq : qw with
      | nil =>
        rw [hq] at hle
        simp at hle
        omega
      | cons a as => rfl
    rw [if_neg (by simp [hne])]
  · rw [if_neg h]
    have hm0 : m = 0 := by omega
    rw [hm0]
    simp

theorem keywordBoost_eq (docs : List String) (q : String) :
    keywordBoost docs q = min 1 ((docs.map (specFrac q)).sum / (docs.length : ℝ)) := by
  rw [keywordBoost]
  by_cases h : docs.isEmpty = true
  · have hd : docs = [] := by
      cases docs with
      | nil => rfl
      | cons a as => simp at h
    rw [if_pos h, hd]
    simp
  · rw [if_neg h, docFrac_eq_specFrac]

theorem consistencyOf_eq (ds : List ℝ) (h : ds ≠ []) :
    consistencyOf ds = if ds.length = 1 then 1 else 1 / (1 + popVar ds) := by
  rw [consistencyOf]
  have h1 : 1 ≤ ds.length := by
    cases ds with
    | nil => exact absurd rfl h
    | cons a as => simp
  by_cases he : ds.length = 1
  · rw [if_neg (by omega), if_pos he]
  · rw [if_pos (by omega), if_neg he]

theorem foldl_min_nonneg : ∀ (t : List ℝ) (d : ℝ), 0 ≤ d → (∀ x ∈ t, 0 ≤ x) →
    0 ≤ t.foldl min d := by
  intro t
  induction t with
  | nil => intro d hd _; exact hd
  | cons x xs ih =>
    intro d hd hx
    rw [List.foldl_cons]
    exact ih (min d x) (le_min hd (hx x (by simp))) fun y hy => hx y (by simp [hy])

theorem minDist_nonneg (ds : List ℝ) (h : ∀ d ∈ ds, 0 ≤ d) : 0 ≤ minDist ds := by
  cases ds with
  | nil => rw [minDist]
  | cons d t =>
    rw [minDist]
    exact foldl_min_nonneg t d (h d (by simp)) fun x hx => h x (by simp [hx])

theorem avgDist_nonneg (ds : List ℝ) (h : ∀ d ∈ ds, 0 ≤ d) : 0 ≤ avgDist ds := by
  rw [avgDist]
  exact div_nonneg (List.sum_nonneg h) (by positivity)

theorem popVar_nonneg (ds : List ℝ) : 0 ≤ popVar ds := by
  rw [popVar]
  refine div_nonneg (List.sum_nonneg ?_) (by positivity)
  intro x hx
  obtain ⟨y, _, rfl⟩ := List.mem_map.mp hx
  positivity

theorem consistencyOf_mem (ds : List ℝ) : 0 ≤ consistencyOf ds ∧ consistencyOf ds ≤ 1 := by
  rw [consistencyOf]
  split
  · have hv := popVar_nonneg ds
    constructor
    · positivity
    · rw [div_le_one (by linarith)]
      linarith
  · norm_num

theorem docFrac_nonneg (q content : String) : 0 ≤ docFrac q content := by
  rw [docFrac]
  split
  · split
    · exact le_refl 0
    · positivity
  · exact le_refl 0

theorem keywordBoost_mem (docs : List String) (q : String) :
    0 ≤ keywordBoost docs q ∧ keywordBoost docs q ≤ 1 := by
  rw [keywordBoost]
  split
  · norm_num
  · constructor
    · refine le_min (by norm_num) (div_nonneg (List.sum_nonneg ?_) (by positivity))
      intro x hx
      obtain ⟨d, _, rfl⟩ := List.mem_map.mp hx
      exact docFrac_nonneg q d
    · exact min_le_left 1 _

theorem insertDesc_length {β : Type} (key : β → ℚ) (x : β) :
    ∀ l : List β, (insertDesc key x l).length = l.length + 1 := by
  intro l
  induction l with
  | nil => rfl
  | cons y ys ih =>
    rw [insertDesc]
    split
    · simp
    · simp only [List.length_cons, ih]

theorem sortDesc_length {β : Type} (key : β → ℚ) (L : List β) :
    (sortDesc key L).length = L.length := by
  suffices h : ∀ (l : List β) (acc : List β),
      (l.foldl (fun acc x => insertDesc key x acc) acc).length = acc.length + l.length by
    have := h L []
    simpa [sortDesc] using this
  intro l
  induction l with
  | nil => intro acc; simp
  | cons x xs ih =>
    intro acc
    rw [List.foldl_cons, ih (insertDesc key x acc), insertDesc_length]
    simp only [List.length_cons]
    omega

/-- Unfolding `retrieveWithScores` on the successful enhanced path. -/
theorem retrieveWithScores_of_candidates (search : String → Nat → Option (List (Doc × ℚ)))
    (q : String) (k : Nat) (cands : List (Doc × ℚ)) (hq : isBlank q = false)
    (hc : enhancedCandidates search q (min (k * 3) 20) = some cands) (hne : cands ≠ []) :
    retrieveWithScores search q k = rankCandidates (extractKeywords q) k cands := by
  rw [retrieveWithScores, hq, hc]
  have hie : cands.isEmpty = false := by
    cases cands with
    | nil => exact absurd rfl hne
    | cons a as => rfl
  simp [hie]

/-! ## Claim theorems -/

/-- Claim C1: for every non-empty list of raw retrieval distances, retrieved
chunks and query, the confidence final score equals
`(0.5*best_similarity + 0.3*avg_similarity + 0.1*consistency + 0.1*keyword_boost)`
raised to the power `0.9` and clamped to `[0,1]`, where `best_similarity =
max(0, 1 - min(distances)/2)`, `avg_similarity = max(0, 1 - mean/2)`,
`consistency` is `1` for a single distance and `1/(1 + population variance)`
otherwise, and `keyword_boost` is the capped mean over chunks of the fraction
of query words present in the chunk. -/
theorem C1_confidence_formula (ds : List ℝ) (docs : List String) (q : String)
    (hne : ds ≠ []) : specFinalScore ds docs q = confidenceScore ds docs q := by
  rw [specFinalScore, confidenceScore, scoreFromFactors, bestSim, avgSim,
    consistencyOf_eq ds hne, keywordBoost_eq]

/-- Witness for C1 at the concrete input `distances = [1]`, no chunks. -/
theorem C1_confidence_formula_witness :
    specFinalScore [1] [] "" = confidenceScore [1] [] "" :=
  C1_confidence_formula [1] [] "" (by simp)

/-- Claim C2: on a non-blank query whose enhanced index search yields
candidates, `retrieve_with_scores` returns the candidates stable-sorted in
non-increasing order of combined score `0.7*similarity + 0.3*keyword_match`
and truncated to the first `k`: the result is exactly the take-`k` projection
of the stable descending sort of the scored tuples; it is pairwise sorted by
non-increasing recomputed combined score; and the sort agrees with sorting the
index-tagged tuples by the strict lexicographic order (combined score
descending, original index ascending), which expresses that ties keep the
original index-search order. -/
theorem C2_ranking_sorted_stable (search : String → Nat → Option (List (Doc × ℚ)))
    (q : String) (k : Nat) (cands : List (Doc × ℚ)) (hq : isBlank q = false)
    (hc : enhancedCandidates search q (min (k * 3) 20) = some cands) (hne : cands ≠ []) :
    retrieveWithScores search q k
      = ((sortDesc combKey (enhTuples (extractKeywords q) cands)).take k).map
          (fun t => (t.1, t.2.1))
    ∧ (retrieveWithScores search q k).Pairwise
        (fun a b => combinedScore (extractKeywords q) b.1 b.2
          ≤ combinedScore (extractKeywords q) a.1 a.2)
    ∧ sortDesc combKey (enhTuples (extractKeywords q) cands)
        = (sortDesc (fun p => combKey p.2)
            (tagIdx 0 (enhTuples (extractKeywords q) cands))).map Prod.snd
    ∧ (sortDesc (fun p => combKey p.2)
        (tagIdx 0 (enhTuples (extractKeywords q) cands))).Pairwise
          (lexGT (fun p => combKey p.2) Prod.fst) := by
  have hresult := retrieveWithScores_of_candidates search q k cands hq hc hne
  set kws := extractKeywords q with hkws
  set enh := enhTuples kws cands with henh
  have h3 : sortDesc combKey enh
      = (sortDesc (fun p => combKey p.2) (tagIdx 0 enh)).map Prod.snd := by
    rw [sortDesc_map_snd combKey (tagIdx 0 enh), map_snd_tagIdx enh 0]
  have h4 : (sortDesc (fun p => combKey p.2) (tagIdx 0 enh)).Pairwise
      (lexGT (fun p => combKey p.2) Prod.fst) :=
    sortDesc_pairwise (fun p => combKey p.2) Prod.fst (tagIdx 0 enh) (tagIdx_pairwise enh 0)
  have hp0 : (sortDesc combKey enh).Pairwise fun t1 t2 => combKey t2 ≤ combKey t1 := by
    rw [h3, List.pairwise_map]
    refine h4.imp ?_
    intro a b hab
    rcases hab with h | h
    · exact le_of_lt h
    · exact le_of_eq h.1.symm
  have hptake : ((sortDesc combKey enh).take k).Pairwise
      fun t1 t2 => combKey t2 ≤ combKey t1 :=
    List.Pairwise.sublist (List.take_sublist k _) hp0
  have hmem : ∀ t ∈ (sortDesc combKey enh).take k,
      combKey t = combinedScore kws t.1 t.2.1 := by
    intro t ht
    have h2 : t ∈ enh := sortDesc_subset combKey enh t (List.take_subset k _ ht)
    rw [henh, enhTuples] at h2
    obtain ⟨p, _, rfl⟩ := List.mem_map.mp h2
    rfl
  refine ⟨by rw [hresult]; rfl, ?_, h3, h4⟩
  rw [hresult, rankCandidates]
  refine List.pairwise_map.mpr ?_
  refine List.Pairwise.imp_of_mem ?_ hptake
  intro a b ha hb hab
  show combinedScore kws b.1 b.2.1 ≤ combinedScore kws a.1 a.2.1
  rw [← hmem a ha, ← hmem b hb]
  exact hab

/-- Witness for C2 at a concrete one-candidate search. -/
theorem C2_ranking_sorted_stable_witness :
    retrieveWithScores (fun _ _ => some [(⟨"alpha"⟩, 1)]) "hello" 2
      = ((sortDesc combKey (enhTuples (extractKeywords "hello")
          [(⟨"alpha"⟩, 1)])).take 2).map (fun t => (t.1, t.2.1))
    ∧ (retrieveWithScores (fun _ _ => some [(⟨"alpha"⟩, 1)]) "hello" 2).Pairwise
        (fun a b => combinedScore (extractKeywords "hello") b.1 b.2
          ≤ combinedScore (extractKeywords "hello") a.1 a.2)
    ∧ sortDesc combKey (enhTuples (extractKeywords "hello") [(⟨"alpha"⟩, 1)])
        = (sortDesc (fun p => combKey p.2)
            (tagIdx 0 (enhTuples (extractKeywords "hello") [(⟨"alpha"⟩, 1)]))).map Prod.snd
    ∧ (sortDesc (fun p => combKey p.2)
        (tagIdx 0 (enhTuples (extractKeywords "hello") [(⟨"alpha"⟩, 1)]))).Pairwise
          (lexGT (fun p => combKey p.2) Prod.fst) :=
  C2_ranking_sorted_stable (fun _ _ => some [(⟨"alpha"⟩, 1)]) "hello" 2
    [(⟨"alpha"⟩, 1)] (by decide) rfl (by simp)

/-- Claim C3 counterexample: with the real-valued distance list `[-2]` the
returned breakdown has `best_similarity = 2`, outside `[0,1]`; the claim as
stated (all fields in `[0,1]` for all real-valued distances) is false. -/
theorem C3_counterexample :
    ¬ ((mkBreakdown [(-2 : ℝ)] [] "").best_similarity ≤ 1) := by
  show ¬ (bestSim [(-2 : ℝ)] ≤ 1)
  rw [bestSim, minDist]
  simp only [List.foldl_nil]
  rw [not_le]
  have h2 : (1 : ℝ) - (-2) / 2 = 2 := by norm_num
  rw [h2]
  exact lt_max_of_lt_right (by norm_num)

/-- Claim C3 as amended: for every retrieval result with at least one
distance, all of whose distances are nonnegative (as FAISS cosine/L2
distances are), every field of the returned `ConfidenceBreakdown` lies in
`[0,1]`. -/
theorem C3_amended_breakdown_bounds (ds : List ℝ) (docs : List String) (q : String)
    (hne : ds ≠ []) (hpos : ∀ d ∈ ds, 0 ≤ d) :
    (0 ≤ (mkBreakdown ds docs q).best_similarity
      ∧ (mkBreakdown ds docs q).best_similarity ≤ 1)
    ∧ (0 ≤ (mkBreakdown ds docs q).avg_similarity
      ∧ (mkBreakdown ds docs q).avg_similarity ≤ 1)
    ∧ (0 ≤ (mkBreakdown ds docs q).consistency
      ∧ (mkBreakdown ds docs q).consistency ≤ 1)
    ∧ (0 ≤ (mkBreakdown ds docs q).keyword_match
      ∧ (mkBreakdown ds docs q).keyword_match ≤ 1)
    ∧ (0 ≤ (mkBreakdown ds docs q).final_score
      ∧ (mkBreakdown ds docs q).final_score ≤ 1) := by
  refine ⟨⟨le_max_left _ _, ?_⟩, ⟨le_max_left _ _, ?_⟩, consistencyOf_mem ds,
    keywordBoost_mem docs q, ⟨le_max_left _ _, ?_⟩⟩
  · have h := minDist_nonneg ds hpos
    exact max_le (by norm_num) (by linarith)
  · have h := avgDist_nonneg ds hpos
    exact max_le (by norm_num) (by linarith)
  · show confidenceScore ds docs q ≤ 1
    rw [confidenceScore, scoreFromFactors]
    exact max_le (by norm_num) (min_le_left 1 _)

/-- Witness for the amended C3 at `distances = [0]`. -/
theorem C3_amended_breakdown_bounds_witness :
    (0 ≤ (mkBreakdown [(0 : ℝ)] [] "").best_similarity
      ∧ (mkBreakdown [(0 : ℝ)] [] "").best_similarity ≤ 1)
    ∧ (0 ≤ (mkBreakdown [(0 : ℝ)] [] "").avg_similarity
      ∧ (mkBreakdown [(0 : ℝ)] [] "").avg_similarity ≤ 1)
    ∧ (0 ≤ (mkBreakdown [(0 : ℝ)] [] "").consistency
      ∧ (mkBreakdown [(0 : ℝ)] [] "").consistency ≤ 1)
    ∧ (0 ≤ (mkBreakdown [(0 : ℝ)] [] "").keyword_match
      ∧ (mkBreakdown [(0 : ℝ)] [] "").keyword_match ≤ 1)
    ∧ (0 ≤ (mkBreakdown [(0 : ℝ)] [] "").final_score
      ∧ (mkBreakdown [(0 : ℝ)] [] "").final_score ≤ 1) :=
  C3_amended_breakdown_bounds [0] [] "" (by simp) (by simp)

/-- Claim C4: with an index honouring its contract (at most `n` results for a
request of `n`) and a positive `k`, `retrieve_with_scores` returns at most `k`
pairs; and on the index-consulting path (non-blank query, enhanced search
succeeded) it returns fewer than `k` only when the index yielded fewer than
`k` candidates. -/
theorem C4_at_most_k (search : String → Nat → Option (List (Doc × ℚ)))
    (q : String) (k : Nat) (hk : 0 < k)
    (hcontract : ∀ s n r, search s n = some r → r.length ≤ n) :
    (retrieveWithScores search q k).length ≤ k
    ∧ (∀ cands, isBlank q = false →
        enhancedCandidates search q (min (k * 3) 20) = some cands →
        (retrieveWithScores search q k).length < k → cands.length < k) := by
  have hrank : ∀ cands : List (Doc × ℚ),
      (rankCandidates (extractKeywords q) k cands).length
        = min k (cands.length) := by
    intro cands
    rw [rankCandidates, List.length_map, List.length_take, sortDesc_length,
      enhTuples, List.length_map]
  constructor
  · rw [retrieveWithScores]
    by_cases hb : isBlank q = true
    · rw [if_pos hb]
      simp
    · rw [if_neg hb]
      cases hec : enhancedCandidates search q (min (k * 3) 20) with
      | none =>
        cases hs : search q k with
        | none => simp
        | some r => simpa using hcontract q k r hs
      | some dws =>
        by_cases hie : dws.isEmpty = true
        · simp [hie]
        · simp only [Bool.not_eq_true] at hie
          simp only [hie, Bool.false_eq_true, if_false]
          rw [hrank dws]
          omega
  · intro cands hq hc hlt
    rw [retrieveWithScores, hq] at hlt
    simp only [Bool.false_eq_true, if_false] at hlt
    rw [hc] at hlt
    by_cases hie : cands.isEmpty = true
    · have : cands = [] := by
        cases cands with
        | nil => rfl
        | cons a as => simp at hie
      rw [this]
      simpa using hk
    · simp only [Bool.not_eq_true] at hie
      simp only [hie, Bool.false_eq_true, if_false] at hlt
      rw [hrank cands] at hlt
      omega

set_option maxHeartbeats 1000000 in
/-- Witness for C4 with an index returning at most the requested number of
candidates and `k = 1`. -/
theorem C4_at_most_k_witness :
    (retrieveWithScores (fun _ n => some ([(⟨"a"⟩, 1), (⟨"b"⟩, 2)].take n)) "hello" 1).length ≤ 1
    ∧ (∀ cands, isBlank "hello" = false →
        enhancedCandidates (fun _ n => some ([(⟨"a"⟩, 1), (⟨"b"⟩, 2)].take n)) "hello"
          (min (1 * 3) 20) = some cands →
        (retrieveWithScores (fun _ n => some ([(⟨"a"⟩, 1), (⟨"b"⟩, 2)].take n))
          "hello" 1).length < 1 →
        cands.length < 1) := by
  have h := C4_at_most_k (fun _ n => some ([(⟨"a"⟩, 1), (⟨"b"⟩, 2)].take n)) "hello" 1
    (by norm_num)
    (fun s n r hr => by
      have h1 : ([(⟨"a"⟩, 1), (⟨"b"⟩, 2)] : List (Doc × ℚ)).take n = r := by
        injection hr
      rw [← h1, List.length_take]
      have h2 : ([(⟨"a"⟩, (1 : ℚ)), (⟨"b"⟩, 2)] : List (Doc × ℚ)).length = 2 := rfl
      omega)
  exact h

/-- Claim C5: a blank (whitespace-only) query returns the empty result for
every index function, so the index is never consulted; an index that always
returns the empty list yields an empty result; and the generator assigns
confidence `0` to an empty retrieval, none of this raising an error. -/
theorem C5_blank_and_empty (search : String → Nat → Option (List (Doc × ℚ)))
    (q : String) (k : Nat) :
    (isBlank q = true → retrieveWithScores search q k = [])
    ∧ ((∀ s n, search s n = some []) → retrieveWithScores search q k = [])
    ∧ generatorConfidence [] q = 0 := by
  refine ⟨?_, ?_, rfl⟩
  · intro hb
    rw [retrieveWithScores, if_pos hb]
  · intro hempty
    rw [retrieveWithScores]
    by_cases hb : isBlank q = true
    · rw [if_pos hb]
    · rw [if_neg hb]
      have hec : enhancedCandidates search q (min (k * 3) 20) = some [] := by
        rw [enhancedCandidates, hempty (expandQuery q) (min (k * 3) 20)]
        simp [hempty]
      rw [hec]
      rfl

/-- Witness for C5 at the whitespace query `"   "` and an always-empty index. -/
theorem C5_blank_and_empty_witness :
    retrieveWithScores (fun _ _ => some [(⟨"x"⟩, 1)]) "   " 5 = []
    ∧ retrieveWithScores (fun _ _ => some []) "hello" 5 = []
    ∧ generatorConfidence [] "hello" = 0 :=
  ⟨(C5_blank_and_empty (fun _ _ => some [(⟨"x"⟩, 1)]) "   " 5).1 (by decide),
   (C5_blank_and_empty (fun _ _ => some []) "hello" 5).2.1 (fun _ _ => rfl),
   (C5_blank_and_empty (fun _ _ => some []) "hello" 5).2.2⟩

/-- Claim C6: keyword extraction deterministically tokenizes the lower-cased
query (word characters plus hyphen and apostrophe), removes stop words and
tokens of length at most 2, and deduplicates keeping first occurrences; the
empty string yields the empty list, and `"What is the capital of France?"`
yields exactly `["capital", "france"]`. -/
theorem C6_keyword_extraction :
    (∀ q : String, extractKeywords q
      = dedupSeen [] ((findTokens (lowerChars q)).filter keepTok))
    ∧ extractKeywords "" = []
    ∧ extractKeywords "What is the capital of France?"
        = ["capital".toList, "france".toList] :=
  ⟨fun _ => rfl, rfl, by decide⟩

/-- Claim C7: when any index call of the enhanced path raises, the function
performs exactly one plain fallback search with the raw query and the
requested `k` and returns its result, or the empty list when that fallback
raises too — never an error. -/
theorem C7_fallback_on_error (search : String → Nat → Option (List (Doc × ℚ)))
    (q : String) (k : Nat) (hq : isBlank q = false)
    (hfail : enhancedCandidates search q (min (k * 3) 20) = none) :
    retrieveWithScores search q k = (search q k).getD [] := by
  rw [retrieveWithScores, hq, hfail]
  simp

/-- Witness for C7: an index that raises except at `n = 3`. -/
theorem C7_fallback_on_error_witness :
    retrieveWithScores (fun _ n => if n = 3 then some [(⟨"x"⟩, 1)] else none) "hello" 3
      = (((fun (_ : String) (n : Nat) =>
          if n = 3 then some [(⟨"x"⟩, (1 : ℚ))] else none) "hello" 3).getD []) :=
  C7_fallback_on_error (fun _ n => if n = 3 then some [(⟨"x"⟩, 1)] else none)
    "hello" 3 (by decide) rfl

/-- Claim C8: holding the other three factors fixed and nonnegative (as they
always are in the code), the clamped exponentiated confidence score is
monotonically non-decreasing in `best_similarity`. -/
theorem C8_monotone_in_best_similarity (s₁ s₂ a c b : ℝ) (hs : 0 ≤ s₁)
    (h12 : s₁ ≤ s₂) (ha : 0 ≤ a) (hc : 0 ≤ c) (hb : 0 ≤ b) :
    scoreFromFactors s₁ a c b ≤ scoreFromFactors s₂ a c b := by
  rw [scoreFromFactors, scoreFromFactors]
  have h1 : (0 : ℝ) ≤ 0.5 * s₁ + 0.3 * a + 0.1 * c + 0.1 * b := by linarith
  have h2 : 0.5 * s₁ + 0.3 * a + 0.1 * c + 0.1 * b
      ≤ 0.5 * s₂ + 0.3 * a + 0.1 * c + 0.1 * b := by linarith
  have h3 := Real.rpow_le_rpow h1 h2 (by norm_num : (0 : ℝ) ≤ 0.9)
  exact max_le_max (le_refl 0) (min_le_min (le_refl 1) h3)

/-- Witness for C8 at `best_similarity` 0 and 1. -/
theorem C8_monotone_in_best_similarity_witness :
    scoreFromFactors 0 0 0 0 ≤ scoreFromFactors 1 0 0 0 :=
  C8_monotone_in_best_similarity 0 1 0 0 0 (le_refl 0) (by norm_num)
    (le_refl 0) (le_refl 0) (le_refl 0)

/-- Claim C9 counterexample: on the reply
`"ANSWER: aa ANSWER: bb SOURCES: cc"`, the code truncates at the second
`ANSWER:` marker (an artifact of `split`), returning `"aa"`, while the claim's
rule (substring after the first `ANSWER:` and before the following
`SOURCES:`) yields `"aa ANSWER: bb"`; the claim as stated is false. -/
theorem C9_counterexample :
    extractAnswer ("ANSWER: aa ANSWER: bb SOURCES: cc".toList)
      ≠ specC9Extract ("ANSWER: aa ANSWER: bb SOURCES: cc".toList) := by
  decide

/-- Claim C9 as amended: the segment after the first `ANSWER:` marker is
additionally truncated at the next `ANSWER:` occurrence before the
`SOURCES:` cut, and the result is whitespace-stripped.  The five conjuncts
characterize every configuration: (1) a clean both-marker sandwich
`pre ++ "ANSWER:" ++ mid ++ "SOURCES:" ++ post` yields the stripped `mid`;
(2) a second `ANSWER:` marker truncates the segment between the first two
occurrences (then cut at its first `SOURCES:` and stripped); (3) a single
`ANSWER:` marker yields the remainder cut at the first `SOURCES:` (if any)
and stripped; (4) a single `SOURCES:` marker yields the stripped portion
before it; (5) with no marker the whole stripped reply is the answer. -/
theorem C9_amended_extract_answer :
    (∀ pre mid post : List Char, isSubstr ansM pre = false →
      isSubstr ansM mid = false → isSubstr srcM mid = false →
      extractAnswer (pre ++ ansM ++ mid ++ srcM ++ post) = pyStrip mid)
    ∧ (∀ pre mid rest : List Char, isSubstr ansM pre = false →
      isSubstr ansM mid = false →
      extractAnswer (pre ++ ansM ++ mid ++ ansM ++ rest)
        = pyStrip (takeUntil srcM mid))
    ∧ (∀ pre mid : List Char, isSubstr ansM pre = false →
      isSubstr ansM mid = false →
      extractAnswer (pre ++ ansM ++ mid) = pyStrip (takeUntil srcM mid))
    ∧ (∀ pre post : List Char, isSubstr ansM (pre ++ srcM ++ post) = false →
      isSubstr srcM pre = false →
      extractAnswer (pre ++ srcM ++ post) = pyStrip pre)
    ∧ (∀ t : List Char, isSubstr ansM t = false → isSubstr srcM t = false →
      extractAnswer t = pyStrip t) :=
  ⟨extractAnswer_sandwich, extractAnswer_double_ans, extractAnswer_ans_only,
   extractAnswer_src_only, extractAnswer_no_marker⟩

/-- Witness for the amended C9, exercising all five configurations: a clean
sandwich, a duplicated `ANSWER:` marker, a lone `ANSWER:` marker, a lone
`SOURCES:` marker, and a marker-free reply. -/
theorem C9_amended_extract_answer_witness :
    extractAnswer ("x ".toList ++ ansM ++ " mid ".toList ++ srcM ++ " post".toList)
      = pyStrip " mid ".toList
    ∧ extractAnswer ("x ".toList ++ ansM ++ " aa ".toList ++ ansM ++ " bb".toList)
        = pyStrip (takeUntil srcM " aa ".toList)
    ∧ extractAnswer ("head ".toList ++ ansM ++ " tail only".toList)
        = pyStrip (takeUntil srcM " tail only".toList)
    ∧ extractAnswer ("stuff ".toList ++ srcM ++ " tail".toList) = pyStrip "stuff ".toList
    ∧ extractAnswer "plain reply ".toList = pyStrip "plain reply ".toList :=
  ⟨C9_amended_extract_answer.1 "x ".toList " mid ".toList " post".toList
    (by decide) (by decide) (by decide),
   C9_amended_extract_answer.2.1 "x ".toList " aa ".toList " bb".toList
    (by decide) (by decide),
   C9_amended_extract_answer.2.2.1 "head ".toList " tail only".toList
    (by decide) (by decide),
   C9_amended_extract_answer.2.2.2.1 "stuff ".toList " tail".toList
    (by decide) (by decide),
   C9_amended_extract_answer.2.2.2.2 "plain reply ".toList (by decide) (by decide)⟩

/-- Claim C10 counterexample: for the query `"a_-bcd"` the single keyword is
`"-bcd"` (the regex match starts at the hyphen after the underscore), the
expanded query is `"a_-bcd -bcd"`, and re-extraction yields `["-bcd", "bcd"]`
— so keyword extraction is not invariant under query expansion. -/
theorem C10_counterexample :
    extractKeywords (expandQuery "a_-bcd") ≠ extractKeywords "a_-bcd" := by
  decide

/-- Claim C10 as amended: keyword extraction is invariant under query
expansion for every query whose extracted keywords each begin and end with an
alphanumeric character (the counterexample requires a keyword starting or
ending with a hyphen or apostrophe). -/
theorem C10_amended_expansion_invariant (q : String)
    (hclean : ∀ kw ∈ extractKeywords q,
      (kw.headD ' ').isAlphanum = true ∧ (kw.getLastD ' ').isAlphanum = true) :
    extractKeywords (expandQuery q) = extractKeywords q :=
  extractKeywords_expand_of_clean q hclean

/-- Witness for the amended C10 on the scenario query. -/
theorem C10_amended_expansion_invariant_witness :
    extractKeywords (expandQuery "What is the capital of France?")
      = extractKeywords "What is the capital of France?" :=
  C10_amended_expansion_invariant "What is the capital of France?" (by decide)

end RagCore
